import Mathlib

/-!
Shallow embedding of `crates/small-text/src/text.rs` from the `tui-widgets`
repository: the `SmallTextWidget` style-resolution engine and its animation
lifecycle.  Machine integers (`u16`) are modelled as `Nat`; Rust operations
that panic (`Iterator::step_by` with step 0, `x % 0`) are modelled by
`Option`-valued functions returning `none` at the panicking input.  The
external `ratatui` buffer is modelled as a total function from coordinates to
cells.  Types that live outside the provided source tree (`Target`,
`SymbolStyle`, `Animation`, `AnimationStyle`, `SmallTextStyle`) are modelled
from the specification and carry doc comments saying so.
-/

namespace SmallText

/-- Modelled from the spec: a terminal color; the concrete color enum lives in
the external `ratatui` crate, so colors are abstracted as natural numbers. -/
abbrev Color := Nat

/-- Modelled from the spec: a set of text attributes (bold/underline/...);
abstracted as a natural number bitset, as only its (non-)mutation matters. -/
abbrev Modifier := Nat

/-- Modelled from the spec: `Target`, the declarative column selector of a
style rule: single column, half-open range, stride pattern `Every(n)`
(columns 0, n, 2n, ...), inverse stride `AllExceptEvery(n)`, or `Untouched`
(columns no other rule touched).  Its definition is outside `src/` but every
variant appears in the `match` arms of `text.rs`. -/
inductive Target where
  | Single (x : Nat)
  | Range (start stop : Nat)
  | Every (n : Nat)
  | AllExceptEvery (n : Nat)
  | Untouched
deriving DecidableEq, Repr

/-- Modelled from the spec: `SymbolStyle` — background color, foreground color
and a modifier set, as built by `SymbolStyleBuilder` in the crate's doc
example. -/
structure SymbolStyle where
  background_color : Color
  foreground_color : Color
  modifier : Modifier
deriving DecidableEq, Repr

/-- One cell of the external `ratatui` buffer: a character plus colors and a
modifier set.  `set_char`/`set_bg`/`set_fg` update one field each. -/
structure Cell where
  ch : Char
  bg : Color
  fg : Color
  modifier : Modifier
deriving DecidableEq, Repr

/-- The external drawing buffer, addressed by (physical column, row).  It is
modelled as a total function: the widget only writes cells. -/
abbrev Buffer := Nat × Nat → Cell

/-- The rectangular area handed to `render` (`ratatui::layout::Rect`). -/
structure Rect where
  x : Nat
  y : Nat
  width : Nat
  height : Nat
deriving DecidableEq, Repr

/-- `Symbol` from `text.rs`: a character paired with the physical column it is
drawn at. -/
structure Symbol where
  real_x : Nat
  value : Char
deriving DecidableEq, Repr

/-- Association list standing for `HashMap<u16, SymbolStyle>`.  Iteration
order of the Rust map is arbitrary, but every consumer in `text.rs` is
insensitive to it, so a deterministic list representation is faithful. -/
abbrev AList := List (Nat × SymbolStyle)

/-- `HashMap::insert`: replace any existing binding of the key. -/
def insertA (m : AList) (k : Nat) (v : SymbolStyle) : AList :=
  m.filter (fun p => p.1 != k) ++ [(k, v)]

/-- `HashMap::get`. -/
def getA (m : AList) (k : Nat) : Option SymbolStyle :=
  match m with
  | [] => none
  | p :: rest => if p.1 = k then some p.2 else getA rest k

/-- The recursion of `Iterator::step_by(n)`: keep the head, skip the next
`n - 1` elements.  `fuel` only makes the recursion structural; any fuel of at
least the list's length yields the iterator's behaviour, since each recursive
call consumes at least one element. -/
def stepByGo (n : Nat) (fuel : Nat) (l : List Nat) : List Nat :=
  match fuel, l with
  | 0, _ => []
  | _ + 1, [] => []
  | fuel' + 1, a :: rest => a :: stepByGo n fuel' (rest.drop (n - 1))

/-- `Iterator::step_by(n)` applied to a list: the elements at indices
0, n, 2n, .... -/
def stepByAux (n : Nat) (l : List Nat) : List Nat :=
  stepByGo n l.length l

/-- `step_by` including the panic on a zero step. -/
def stepBy (l : List Nat) (n : Nat) : Option (List Nat) :=
  if n = 0 then none else some (stepByAux n l)

/-- The `AllExceptEvery` loop body filter: keep `x` with `x % n != 0`.
Rust's `%` panics on a zero divisor, which happens as soon as the loop runs
one iteration, hence `none` when `n = 0` and the list is nonempty. -/
def allExceptList (l : List Nat) (n : Nat) : Option (List Nat) :=
  if n = 0 then (if l = [] then some [] else none)
  else some (l.filter (fun x => x % n != 0))

/-- `buf[(symbol.real_x, y)].set_char(..).set_bg(..).set_fg(..)`: write the
glyph and both colors of one cell, leaving its modifier untouched. -/
def writeSym (y : Nat) (buf : Buffer) (sym : Symbol) (s : SymbolStyle) : Buffer :=
  fun p =>
    if p = (sym.real_x, y) then
      { ch := sym.value
        bg := s.background_color
        fg := s.foreground_color
        modifier := (buf (sym.real_x, y)).modifier }
    else buf p

/-- One step of `calculate_symbol_styles`'s non-`Untouched` arms: remove the
column from the unstyled set and insert the style. -/
def stepIns (s : SymbolStyle) (acc : AList × List Nat) (x : Nat) : AList × List Nat :=
  (insertA acc.1 x s, acc.2.erase x)

/-- One rule of `SmallTextWidget::calculate_symbol_styles` (text.rs:283-315):
the five `match` arms over `Target`, acting on the accumulated
(symbol_styles map, unstyled column set) pair.  `none` models a Rust panic. -/
def calcRule (len : Nat) (acc : AList × List Nat) (r : Target × SymbolStyle) :
    Option (AList × List Nat) :=
  match r.1 with
  | Target.Single x => some (stepIns r.2 acc x)
  | Target.Range s e => some ((List.range' s (e - s)).foldl (stepIns r.2) acc)
  | Target.Every n => (stepBy (List.range len) n).map (fun xs => xs.foldl (stepIns r.2) acc)
  | Target.AllExceptEvery n =>
      (allExceptList (List.range len) n).map (fun xs => xs.foldl (stepIns r.2) acc)
  | Target.Untouched =>
      some (acc.2.foldl (fun m x => insertA m x r.2) acc.1, acc.2)

/-- `SmallTextWidget::calculate_symbol_styles` (text.rs:277-319): fold the
sorted rule list over the initial state (empty map, all columns unstyled). -/
def calculate_symbol_styles (rules : List (Target × SymbolStyle)) (len : Nat) :
    Option AList :=
  (rules.foldlM (calcRule len) (([] : AList), List.range len)).map Prod.fst

/-- The shared body of the buffer-writing arms of `apply_styles`: if the
column is on the virtual canvas, write its cell and remove it from the
unstyled set. -/
def styleOne (y : Nat) (canvas : Nat → Option Symbol) (s : SymbolStyle)
    (acc : Buffer × List Nat) (x : Nat) : Buffer × List Nat :=
  match canvas x with
  | some sym => (writeSym y acc.1 sym s, acc.2.erase x)
  | none => acc

/-- One rule of `SmallTextWidget::apply_styles` (text.rs:214-273): the five
`match` arms over `Target`, acting on (buffer, unstyled column set).
`none` models a Rust panic. -/
def applyRule (len y : Nat) (canvas : Nat → Option Symbol)
    (acc : Buffer × List Nat) (r : Target × SymbolStyle) :
    Option (Buffer × List Nat) :=
  match r.1 with
  | Target.Single x => some (styleOne y canvas r.2 acc x)
  | Target.Range s e => some ((List.range' s (e - s)).foldl (styleOne y canvas r.2) acc)
  | Target.Every n =>
      (stepBy (List.range len) n).map (fun xs => xs.foldl (styleOne y canvas r.2) acc)
  | Target.AllExceptEvery n =>
      (allExceptList (List.range len) n).map (fun xs => xs.foldl (styleOne y canvas r.2) acc)
  | Target.Untouched =>
      some (acc.2.foldl (fun b x =>
        match canvas x with
        | some sym => writeSym y b sym r.2
        | none => b) acc.1, acc.2)

/-- `SmallTextWidget::apply_styles` (text.rs:204-275).  `canvasKeys` is
`virtual_canvas.keys()`, the initial unstyled set; `len` is
`self.text_char_count`, from which `x_coords` is built. -/
def applyStyles (rules : List (Target × SymbolStyle)) (len y : Nat)
    (canvas : Nat → Option Symbol) (canvasKeys : List Nat) (buf : Buffer) :
    Option Buffer :=
  (rules.foldlM (applyRule len y canvas) (buf, canvasKeys)).map Prod.fst

/-- Modelled from the spec: the repeat mode of an animation, `Once` or
`Infinite`; its Rust definition is outside `src/`. -/
inductive AnimationRepeatMode where
  | Once
  | Infinite
deriving DecidableEq, Repr

/-- Modelled from the spec: the advance mode of an animation, `Auto`
(wall-clock driven) or `Manual` (driven by `advance()`); its Rust definition
is outside `src/`. -/
inductive AnimationAdvanceMode where
  | Auto
  | Manual
deriving DecidableEq, Repr

/-- Modelled from the spec: one timed animation step — a duration (here in
abstract time units) plus per-step target/style rules.  The spec's style
deltas are modelled as full `SymbolStyle` values, since the delta structure
is outside `src/` and no claim depends on it. -/
structure AnimationStep where
  duration : Nat
  rules : List (Target × SymbolStyle)
deriving DecidableEq, Repr

/-- Modelled from the spec: `AnimationStyle`, the immutable definition of an
animation — its steps, repeat mode and advance mode. -/
structure AnimationStyle where
  steps : List AnimationStep
  repeat_mode : AnimationRepeatMode
  advance_mode : AnimationAdvanceMode
deriving DecidableEq, Repr

/-- The per-tick frame handed back by `next_frame`: a per-column style map,
iterated as `(x, style)` pairs by `apply_animation` (text.rs:336). -/
structure Frame where
  symbol_styles : AList
deriving DecidableEq, Repr

/-- Modelled from the spec: the `Animation` state — its style definition, the
baseline snapshot of statically resolved styles captured at `enable` time,
the current step index, the time accumulated inside the current step, the
paused flag and a completed flag (terminal state of `Once` mode). -/
structure Animation where
  style : AnimationStyle
  baseline : AList
  current_step : Nat
  elapsed_in_step : Nat
  paused : Bool
  completed : Bool
deriving DecidableEq, Repr

/-- Modelled from the spec: `Animation::new(style, symbol_styles)` — a fresh
running animation seeded with step index 0, elapsed 0 and the statically
resolved style map as baseline. -/
def Animation.new (style : AnimationStyle) (symbol_styles : AList) : Animation :=
  { style := style
    baseline := symbol_styles
    current_step := 0
    elapsed_in_step := 0
    paused := false
    completed := false }

/-- Modelled from the spec: `Animation::pause` — enter the paused state. -/
def Animation.pause (a : Animation) : Animation :=
  { a with paused := true }

/-- Modelled from the spec: `Animation::unpause` — leave the paused state. -/
def Animation.unpause (a : Animation) : Animation :=
  { a with paused := false }

/-- Modelled from the spec: `Animation::advance` — under `Manual` advance
mode move to the next step, wrapping under `Infinite` repeat and completing
under `Once`; under `Auto` a no-op. -/
def Animation.advance (a : Animation) : Animation :=
  match a.style.advance_mode with
  | AnimationAdvanceMode.Auto => a
  | AnimationAdvanceMode.Manual =>
      if a.current_step + 1 < a.style.steps.length then
        { a with current_step := a.current_step + 1, elapsed_in_step := 0 }
      else
        match a.style.repeat_mode with
        | AnimationRepeatMode.Infinite => { a with current_step := 0, elapsed_in_step := 0 }
        | AnimationRepeatMode.Once => { a with completed := true }

/-- Modelled from the spec: the current step's rules resolved in priority
order and composed on top of the running baseline snapshot, over the
baseline's columns. -/
def overlayStep (base : AList) (rules : List (Target × SymbolStyle)) : AList :=
  (rules.foldl
    (fun (acc : AList × List Nat) r =>
      match r.1 with
      | Target.Single x => (insertA acc.1 x r.2, acc.2.erase x)
      | Target.Range s e =>
          ((List.range' s (e - s)).foldl (fun a x => (insertA a.1 x r.2, a.2.erase x)) acc)
      | Target.Every n =>
          if n = 0 then acc
          else ((base.map Prod.fst).filter (fun x => x % n == 0)).foldl
            (fun a x => (insertA a.1 x r.2, a.2.erase x)) acc
      | Target.AllExceptEvery n =>
          if n = 0 then acc
          else ((base.map Prod.fst).filter (fun x => x % n != 0)).foldl
            (fun a x => (insertA a.1 x r.2, a.2.erase x)) acc
      | Target.Untouched => (acc.2.foldl (fun m x => insertA m x r.2) acc.1, acc.2))
    (base, base.map Prod.fst)).1

/-- Modelled from the spec: the frame shown for the animation's current
step. -/
def Animation.computeFrame (a : Animation) : Frame :=
  match a.style.steps.get? a.current_step with
  | none => { symbol_styles := a.baseline }
  | some step => { symbol_styles := overlayStep a.baseline step.rules }

/-- Modelled from the spec: the `Auto`-mode step walk of `next_frame`: from
(step index, accumulated time) consume steps whose duration is exhausted,
wrapping under `Infinite` repeat and signalling completion (`none`) under
`Once`.  `fuel` bounds the walk so it is total; callers pass enough fuel
for every behaviour the spec defines. -/
def advanceSteps (fuel idx t : Nat) (steps : List AnimationStep)
    (mode : AnimationRepeatMode) : Option (Nat × Nat) :=
  match fuel with
  | 0 => some (idx, t)
  | fuel' + 1 =>
      match steps.get? idx with
      | none => none
      | some step =>
          if t < step.duration then some (idx, t)
          else
            let t' := t - step.duration
            if idx + 1 < steps.length then advanceSteps fuel' (idx + 1) t' steps mode
            else
              match mode with
              | AnimationRepeatMode.Infinite => advanceSteps fuel' 0 t' steps mode
              | AnimationRepeatMode.Once => none

/-- Modelled from the spec: `Animation::next_frame`.  Wall-clock time is made
explicit as the `elapsed` time units since the previous call.  A paused
animation returns its current frame unchanged; `Manual` mode does not advance
on time; `Auto` mode walks steps whose cumulative duration has elapsed;
`none` in the first component signals completion. -/
def Animation.nextFrame (a : Animation) (elapsed : Nat) : Option Frame × Animation :=
  if a.completed then (none, a)
  else if a.paused then (some a.computeFrame, a)
  else
    match a.style.advance_mode with
    | AnimationAdvanceMode.Manual => (some a.computeFrame, a)
    | AnimationAdvanceMode.Auto =>
        match advanceSteps (a.style.steps.length + elapsed + 1) a.current_step
            (a.elapsed_in_step + elapsed) a.style.steps a.style.repeat_mode with
        | some (idx, t) =>
            let a' := { a with current_step := idx, elapsed_in_step := t }
            (some a'.computeFrame, a')
        | none => (none, { a with completed := true })

/-- Modelled from the spec: `SmallTextStyle`, the configuration value passed
to `SmallTextWidget::new` — the text, the static symbol-style rules (the
iteration sequence of the Rust `HashMap`, in arbitrary order) and the keyed
animation definitions. -/
structure SmallTextStyle (K : Type) where
  text : List Char
  symbol_styles : List (Target × SymbolStyle)
  animation_styles : List (K × AnimationStyle)
deriving DecidableEq

/-- `SmallTextWidget` (text.rs:105-117): the text, its character count, the
sorted static rule list, the optional active animation and the keyed
animation styles. -/
structure SmallTextWidget (K : Type) where
  text : List Char
  text_char_count : Nat
  symbol_styles : List (Target × SymbolStyle)
  active_animation : Option Animation
  animation_styles : List (K × AnimationStyle)
deriving DecidableEq

/-- The priority function inside `targets_sorter` (text.rs:350-356). -/
def targetPriority : Target → Nat
  | Target.Single _ => 4
  | Target.Range _ _ => 3
  | Target.Every _ => 2
  | Target.AllExceptEvery _ => 1
  | Target.Untouched => 0

/-- `targets_sorter` (text.rs:349-358): compare two targets by priority. -/
def targets_sorter (a b : Target) : Ordering :=
  compare (targetPriority a) (targetPriority b)

/-- `HashMap::get` on the keyed animation styles. -/
def lookupAnim {K : Type} [DecidableEq K] (m : List (K × AnimationStyle)) (k : K) :
    Option AnimationStyle :=
  (m.find? (fun p => decide (p.1 = k))).map Prod.snd

/-- `SmallTextWidget::new` (text.rs:150-162): collect the symbol styles,
stably sort them with `targets_sorter` (Rust `sort_by` sorts ascending with
respect to the comparator), count the characters (a `u16` count, hence the
reduction modulo 2^16) and start with no active animation. -/
def SmallTextWidget.new {K : Type} (style : SmallTextStyle K) : SmallTextWidget K :=
  { text := style.text
    text_char_count := style.text.length % 65536
    symbol_styles :=
      style.symbol_styles.mergeSort (fun a b => targets_sorter a.1 b.1 ≠ Ordering.gt)
    active_animation := none
    animation_styles := style.animation_styles }

/-- `SmallTextWidget::enable_animation` (text.rs:167-173): look the key up;
if present, snapshot the statically resolved styles and install a fresh
animation; if absent, do nothing.  `none` models a panic inside
`calculate_symbol_styles`. -/
def SmallTextWidget.enable_animation {K : Type} [DecidableEq K]
    (w : SmallTextWidget K) (key : K) : Option (SmallTextWidget K) :=
  match lookupAnim w.animation_styles key with
  | some style =>
      (calculate_symbol_styles w.symbol_styles w.text_char_count).map
        (fun ss => { w with active_animation := some (Animation.new style ss) })
  | none => some w

/-- `SmallTextWidget::disable_animation` (text.rs:176-178). -/
def SmallTextWidget.disable_animation {K : Type} (w : SmallTextWidget K) :
    SmallTextWidget K :=
  { w with active_animation := none }

/-- `SmallTextWidget::pause_animation` (text.rs:182-186). -/
def SmallTextWidget.pause_animation {K : Type} (w : SmallTextWidget K) :
    SmallTextWidget K :=
  match w.active_animation with
  | some a => { w with active_animation := some a.pause }
  | none => w

/-- `SmallTextWidget::unpause_animation` (text.rs:190-194). -/
def SmallTextWidget.unpause_animation {K : Type} (w : SmallTextWidget K) :
    SmallTextWidget K :=
  match w.active_animation with
  | some a => { w with active_animation := some a.unpause }
  | none => w

/-- `SmallTextWidget::advance_animation` (text.rs:198-202). -/
def SmallTextWidget.advance_animation {K : Type} (w : SmallTextWidget K) :
    SmallTextWidget K :=
  match w.active_animation with
  | some a => { w with active_animation := some a.advance }
  | none => w

/-- The `virtual_canvas` built by `render` (text.rs:126-131): logical column
`i` maps to the `i`-th character drawn at physical column `area.x + i`, for
`i` below the available width (the zip truncates at both the width and the
character count). -/
def virtualCanvas (area : Rect) (text : List Char) (avail : Nat) :
    Nat → Option Symbol :=
  fun i =>
    if i < avail then (text.get? i).map (fun c => { real_x := area.x + i, value := c })
    else none

/-- The frame-writing loop of `apply_animation` (text.rs:336-343): write each
frame column that is on the virtual canvas. -/
def applyFrame (y : Nat) (canvas : Nat → Option Symbol) (frame : Frame)
    (buf : Buffer) : Buffer :=
  frame.symbol_styles.foldl
    (fun b p =>
      match canvas p.1 with
      | some sym => writeSym y b sym p.2
      | none => b)
    buf

/-- `Widget::render for &mut SmallTextWidget` (text.rs:123-143) together with
`apply_animation` (text.rs:321-346), with the wall-clock delta consumed by
`next_frame` made explicit as `elapsed`.  Clamp the width, build the virtual
canvas; with an active animation take its next frame — on completion disable
the animation and fall back to the static `apply_styles` in the same pass —
otherwise write the frame; with no active animation run `apply_styles`.
`none` models a Rust panic. -/
def SmallTextWidget.render {K : Type} (w : SmallTextWidget K) (elapsed : Nat)
    (area : Rect) (buf : Buffer) : Option (SmallTextWidget K × Buffer) :=
  let avail := min area.width w.text_char_count
  let canvas := virtualCanvas area w.text avail
  let canvasKeys := List.range (min avail w.text.length)
  match w.active_animation with
  | some anim =>
      match anim.nextFrame elapsed with
      | (none, _) =>
          (applyStyles w.symbol_styles w.text_char_count area.y canvas canvasKeys buf).map
            (fun b => ({ w with active_animation := none }, b))
      | (some frame, anim') =>
          some ({ w with active_animation := some anim' }, applyFrame area.y canvas frame buf)
  | none =>
      (applyStyles w.symbol_styles w.text_char_count area.y canvas canvasKeys buf).map
        (fun b => (w, b))

/-! Concrete fixtures used by witnesses and counterexamples. -/

/-- A concrete style: white on black, no modifier. -/
def exStyleA : SymbolStyle := { background_color := 1, foreground_color := 2, modifier := 0 }

/-- A second concrete style, distinct from `exStyleA`. -/
def exStyleB : SymbolStyle := { background_color := 3, foreground_color := 4, modifier := 0 }

/-- A concrete buffer filled with blank cells. -/
def exBuf : Buffer := fun _ => { ch := ' ', bg := 0, fg := 0, modifier := 7 }

/-- A concrete five-character text. -/
def exText : List Char := ['h', 'e', 'l', 'l', 'o']

/-- A concrete render area. -/
def exArea : Rect := { x := 2, y := 1, width := 10, height := 1 }

/-- A concrete animation definition with a single automatic step. -/
def exAnimStyle : AnimationStyle :=
  { steps := [{ duration := 5, rules := [(Target.Single 0, exStyleB)] }]
    repeat_mode := AnimationRepeatMode.Once
    advance_mode := AnimationAdvanceMode.Auto }

/-- A concrete animation that has already completed. -/
def exDoneAnim : Animation :=
  { style := exAnimStyle
    baseline := []
    current_step := 0
    elapsed_in_step := 0
    paused := false
    completed := true }

/-- A concrete widget with no active animation and one registered animation
style under key 7. -/
def exWidget : SmallTextWidget Nat :=
  { text := exText
    text_char_count := 5
    symbol_styles := [(Target.Untouched, exStyleB), (Target.Single 0, exStyleA)]
    active_animation := none
    animation_styles := [(7, exAnimStyle)] }

/-- A concrete widget whose active animation has already completed. -/
def exWidgetDone : SmallTextWidget Nat :=
  { exWidget with active_animation := some exDoneAnim }

/-- The widget obtained by enabling animation 7 on `exWidget`. -/
def exWidgetEnabled : SmallTextWidget Nat :=
  { exWidget with
      active_animation := some (Animation.new exAnimStyle
        [(1, exStyleB), (2, exStyleB), (3, exStyleB), (4, exStyleB), (0, exStyleA)]) }

/-- The buffer produced by statically rendering `exWidget` over `exArea`. -/
def exBufStatic : Buffer :=
  (applyStyles exWidget.symbol_styles exWidget.text_char_count exArea.y
    (virtualCanvas exArea exWidget.text (min exArea.width exWidget.text_char_count))
    (List.range (min (min exArea.width exWidget.text_char_count) exWidget.text.length))
    exBuf).getD exBuf

/-- A concrete widget with a single `Single(0)` rule and no `Untouched`
rule. -/
def exWidgetNoUnt : SmallTextWidget Nat :=
  { exWidget with symbol_styles := [(Target.Single 0, exStyleA)] }

/-- The buffer produced by statically rendering `exWidgetNoUnt` over
`exArea`. -/
def exBufNoUnt : Buffer :=
  (applyStyles exWidgetNoUnt.symbol_styles exWidgetNoUnt.text_char_count exArea.y
    (virtualCanvas exArea exWidgetNoUnt.text
      (min exArea.width exWidgetNoUnt.text_char_count))
    (List.range (min (min exArea.width exWidgetNoUnt.text_char_count)
      exWidgetNoUnt.text.length))
    exBuf).getD exBuf

/-- A concrete paused (hence frame-producing) animation. -/
def exRunAnim : Animation :=
  { style := exAnimStyle
    baseline := [(0, exStyleA)]
    current_step := 0
    elapsed_in_step := 0
    paused := true
    completed := false }

/-- The frame `exRunAnim` produces. -/
def exFrameRun : Frame := { symbol_styles := [(0, exStyleB)] }

/-- A concrete widget whose active animation is `exRunAnim`. -/
def exWidgetRun : SmallTextWidget Nat :=
  { exWidget with active_animation := some exRunAnim }

/-- The buffer produced by rendering `exWidgetRun` over `exArea` (the
animation frame is written). -/
def exBufFrameRun : Buffer :=
  applyFrame exArea.y (virtualCanvas exArea exText 5) exFrameRun exBuf

/-! Predicates describing which columns a rule's target claims, used to state
the resolution properties. -/

/-- Whether a target is the `Untouched` variant. -/
def isUntouched : Target → Bool
  | Target.Untouched => true
  | _ => false

/-- The set of columns a non-`Untouched` target claims, as executed by the
resolution loops, for columns below the text length: `Single` and `Range`
claim their columns, `Every n` the multiples of `n`, `AllExceptEvery n` the
non-multiples (each for a nonzero `n` — a zero `n` panics before claiming
anything), and `Untouched` claims nothing. -/
def touchesB (t : Target) (x : Nat) : Bool :=
  match t with
  | Target.Single y => x == y
  | Target.Range s e => decide (s ≤ x) && decide (x < e)
  | Target.Every n => (n != 0) && (x % n == 0)
  | Target.AllExceptEvery n => (n != 0) && (x % n != 0)
  | Target.Untouched => false

/-- Whether any non-`Untouched` (higher-priority) rule of the list claims
column `x`. -/
def claimedB (rules : List (Target × SymbolStyle)) (x : Nat) : Bool :=
  rules.any (fun r => !isUntouched r.1 && touchesB r.1 x)

/-- The invariant carried through the `calculate_symbol_styles` fold: the
unstyled set holds exactly the still-unclaimed columns (and has no
duplicates), unclaimed columns carry the `Untouched` style exactly when an
`Untouched` rule has already run (`hasU`), and claimed columns carry some
style different from the `Untouched` style `u0`. -/
def CalcInv (len : Nat) (u0 : SymbolStyle) (hasU : Bool) (claimed : Nat → Bool)
    (st : AList × List Nat) : Prop :=
  st.2.Nodup ∧
  (∀ x, x < len → (x ∈ st.2 ↔ claimed x = false)) ∧
  (∀ x, x < len → claimed x = false → getA st.1 x = (if hasU then some u0 else none)) ∧
  (∀ x, x < len → claimed x = true → ∃ s, getA st.1 x = some s ∧ s ≠ u0)

/-- An over-approximation of the columns a rule may write during
`apply_styles`: `Single`/`Range`/`Every`/`AllExceptEvery` write within their
selector (a zero stride conservatively may write anywhere before panicking),
and `Untouched` may write any column. -/
def mayTouch (t : Target) (x : Nat) : Bool :=
  match t with
  | Target.Single y => x == y
  | Target.Range s e => decide (s ≤ x) && decide (x < e)
  | Target.Every n => (n == 0) || (x % n == 0)
  | Target.AllExceptEvery n => (n == 0) || (x % n != 0)
  | Target.Untouched => true

/-- The frame effect of every buffer write the widget performs: the modifier
of every cell is preserved, and cells that are not the target of some canvas
symbol on row `y` are untouched. -/
def Tame (canvas : Nat → Option Symbol) (y : Nat) (b b' : Buffer) : Prop :=
  ∀ p, (b' p).modifier = (b p).modifier ∧
    ((∀ i sym, canvas i = some sym → p ≠ (sym.real_x, y)) → b' p = b p)

/-! Supporting lemmas about the association-list map, the unstyled set and
the per-target column lists. -/

/-- Looking a key up after an insert. -/
theorem getA_insertA (m : AList) (k : Nat) (v : SymbolStyle) (q : Nat) :
    getA (insertA m k v) q = if q = k then some v else getA m q := by
  induction m with
  | nil =>
      by_cases h : q = k <;> simp [insertA, getA, h]
      intro h'
      exact absurd h'.symm h
  | cons p rest ih =>
      by_cases hpk : p.1 = k
      · have : insertA (p :: rest) k v = insertA rest k v := by
          simp [insertA, List.filter_cons, hpk]
        rw [this, ih]
        by_cases hqk : q = k
        · simp [hqk]
        · have hpq : ¬p.1 = q := by rw [hpk]; exact fun h => hqk h.symm
          simp [hqk, getA, hpq]
      · have : insertA (p :: rest) k v = p :: insertA rest k v := by
          simp [insertA, List.filter_cons, hpk]
        rw [this]
        by_cases hpq : p.1 = q
        · have hqk : ¬q = k := by rw [← hpq]; exact fun h => hpk h
          simp [getA, hpq, hqk]
        · simp [getA, hpq, ih]

/-- Folding same-style inserts over a column list: a column ends bound to the
style exactly when it is in the list, and other keys keep their bindings. -/
theorem getA_foldl_insert (u : List Nat) (m : AList) (s : SymbolStyle) (q : Nat) :
    getA (u.foldl (fun acc x => insertA acc x s) m) q =
      if q ∈ u then some s else getA m q := by
  induction u generalizing m with
  | nil => simp
  | cons a u ih =>
      rw [List.foldl_cons, ih]
      by_cases h : q ∈ u
      · simp [h]
      · by_cases hqa : q = a <;> simp [h, hqa, getA_insertA]

/-- The map component of a `stepIns` fold: columns in the list get the style,
other keys keep their bindings. -/
theorem foldl_stepIns_fst (xs : List Nat) (acc : AList × List Nat)
    (s : SymbolStyle) (q : Nat) :
    getA ((xs.foldl (stepIns s) acc).1) q = if q ∈ xs then some s else getA acc.1 q := by
  induction xs generalizing acc with
  | nil => simp
  | cons a xs ih =>
      rw [List.foldl_cons, ih]
      by_cases h : q ∈ xs
      · simp [h]
      · by_cases hqa : q = a <;> simp [h, hqa, stepIns, getA_insertA]

/-- The unstyled-set component of a `stepIns` fold stays duplicate-free. -/
theorem foldl_stepIns_nodup (xs : List Nat) (acc : AList × List Nat)
    (s : SymbolStyle) (h : acc.2.Nodup) :
    ((xs.foldl (stepIns s) acc).2).Nodup := by
  induction xs generalizing acc with
  | nil => simpa
  | cons a xs ih => exact ih _ (List.Nodup.erase a h)

/-- Membership in the unstyled set after a `stepIns` fold: a column survives
exactly when it was there and the fold did not claim it. -/
theorem foldl_stepIns_mem (xs : List Nat) (acc : AList × List Nat)
    (s : SymbolStyle) (q : Nat) (h : acc.2.Nodup) :
    q ∈ (xs.foldl (stepIns s) acc).2 ↔ q ∈ acc.2 ∧ q ∉ xs := by
  induction xs generalizing acc with
  | nil => simp
  | cons a xs ih =>
      rw [List.foldl_cons]
      rw [ih (stepIns s acc a) (List.Nodup.erase a h)]
      simp only [stepIns]
      rw [List.Nodup.mem_erase_iff h]
      constructor
      · rintro ⟨⟨hqa, hq⟩, hnx⟩
        exact ⟨hq, by simp [hqa, hnx]⟩
      · rintro ⟨hq, hnx⟩
        simp only [List.mem_cons, not_or] at hnx
        exact ⟨⟨hnx.1, hq⟩, hnx.2⟩

/-- Dropping from an arithmetic range. -/
theorem drop_range' (k : Nat) : ∀ s m : Nat,
    (List.range' s m).drop k = List.range' (s + k) (m - k) := by
  induction k with
  | zero => intro s m; simp
  | succ k ih =>
      intro s m
      match m with
      | 0 => simp
      | m + 1 =>
          rw [List.range'_succ, List.drop_succ_cons, ih (s + 1) m]
          congr 1 <;> omega

/-- Membership in the `step_by` walk of an arithmetic range: exactly the
range elements at an offset divisible by the stride. -/
theorem mem_stepByGo_range' (n : Nat) (hn : 0 < n) :
    ∀ (fuel m s x : Nat), m ≤ fuel →
      (x ∈ stepByGo n fuel (List.range' s m) ↔
        s ≤ x ∧ x < s + m ∧ (x - s) % n = 0) := by
  intro fuel
  induction fuel with
  | zero =>
      intro m s x hm
      have : m = 0 := by omega
      subst this
      simp [stepByGo]
      omega
  | succ fuel ih =>
      intro m s x hm
      match m with
      | 0 =>
          simp [stepByGo]
          omega
      | m + 1 =>
          rw [List.range'_succ]
          show x ∈ s :: stepByGo n fuel ((List.range' (s + 1) m).drop (n - 1)) ↔ _
          rw [drop_range' (n - 1) (s + 1) m]
          have hsn : s + 1 + (n - 1) = s + n := by omega
          rw [hsn]
          rw [List.mem_cons, ih (m - (n - 1)) (s + n) x (by omega)]
          constructor
          · rintro (rfl | ⟨h1, h2, h3⟩)
            · exact ⟨Nat.le_refl _, by omega, by simp⟩
            · refine ⟨by omega, by omega, ?_⟩
              have hx : x - s = (x - (s + n)) + n := by omega
              rw [hx, Nat.add_mod_right]
              exact h3
          · rintro ⟨h1, h2, h3⟩
            by_cases hxs : x = s
            · exact Or.inl hxs
            · right
              have hge : s + n ≤ x := by
                rcases Nat.lt_or_ge x (s + n) with hlt | hge
                · exfalso
                  have hsub : x - s < n := by omega
                  have hpos : 0 < x - s := by omega
                  have := Nat.mod_eq_of_lt hsub
                  omega
                · exact hge
              refine ⟨hge, by omega, ?_⟩
              have hx : x - s = (x - (s + n)) + n := by omega
              rw [hx, Nat.add_mod_right] at h3
              exact h3

/-- Membership in `step_by n` over `0 .. len`: the multiples of `n` below
`len`. -/
theorem mem_stepByAux_range (n len x : Nat) (hn : 0 < n) :
    x ∈ stepByAux n (List.range len) ↔ x < len ∧ x % n = 0 := by
  unfold stepByAux
  rw [List.range_eq_range', List.length_range']
  rw [mem_stepByGo_range' n hn len len 0 x (Nat.le_refl _)]
  simp

/-- Membership in the `AllExceptEvery` column list for a nonzero stride. -/
theorem mem_allExceptList (n len x : Nat) (hn : n ≠ 0) (xs : List Nat)
    (h : allExceptList (List.range len) n = some xs) :
    x ∈ xs ↔ x < len ∧ x % n ≠ 0 := by
  unfold allExceptList at h
  rw [if_neg hn] at h
  injection h with h
  subst h
  simp [List.mem_filter, List.mem_range]

/-- Bool bookkeeping: folding one claim source into the accumulated claim
flag commutes with splitting the head off the rule list. -/
theorem shift_claim (a b c : Bool) :
    ((a || b) = false ∧ c = false) ↔ (a = false ∧ (b || c) = false) := by
  cases a <;> cases b <;> cases c <;> simp

/-- `claimedB` over a cons with a non-`Untouched` head. -/
theorem claimedB_cons_eq (t : Target) (s : SymbolStyle)
    (rest : List (Target × SymbolStyle)) (x : Nat) (ht : isUntouched t = false) :
    claimedB ((t, s) :: rest) x = (touchesB t x || claimedB rest x) := by
  simp [claimedB, List.any_cons, ht]

/-- `claimedB` over a cons with an `Untouched` head. -/
theorem claimedB_cons_untouched (s : SymbolStyle)
    (rest : List (Target × SymbolStyle)) (x : Nat) :
    claimedB ((Target.Untouched, s) :: rest) x = claimedB rest x := by
  simp [claimedB, List.any_cons, isUntouched]

/-- A non-`Untouched` rule preserves the resolution invariant, accumulating
its claimed columns. -/
theorem calcInv_stepIns (len : Nat) (u0 s : SymbolStyle) (t : Target)
    (xs : List Nat) (st : AList × List Nat) (hasU : Bool) (claimed : Nat → Bool)
    (hs : s ≠ u0)
    (hxs : ∀ x, x < len → (x ∈ xs ↔ touchesB t x = true))
    (hinv : CalcInv len u0 hasU claimed st) :
    CalcInv len u0 hasU (fun x => claimed x || touchesB t x)
      (xs.foldl (stepIns s) st) := by
  obtain ⟨hnd, hmem, hunc, hcl⟩ := hinv
  refine ⟨foldl_stepIns_nodup xs st s hnd, ?_, ?_, ?_⟩
  · intro x hx
    rw [foldl_stepIns_mem xs st s x hnd, hmem x hx]
    simp only [Bool.or_eq_false_iff]
    have hxf : x ∉ xs ↔ touchesB t x = false := by
      rw [hxs x hx]
      simp
    rw [← hxf]
  · intro x hx hcf
    simp only [Bool.or_eq_false_iff] at hcf
    rw [foldl_stepIns_fst]
    have hnx : x ∉ xs := by
      rw [hxs x hx, hcf.2]
      simp
    rw [if_neg hnx]
    exact hunc x hx hcf.1
  · intro x hx hct
    rw [foldl_stepIns_fst]
    by_cases hmx : x ∈ xs
    · rw [if_pos hmx]
      exact ⟨s, rfl, hs⟩
    · rw [if_neg hmx]
      apply hcl x hx
      have ht : touchesB t x = false := by
        rw [← Bool.not_eq_true, ← hxs x hx]
        exact hmx
      simp only [ht, Bool.or_false] at hct
      exact hct

/-- The `Untouched` rule writes its style onto exactly the still-unstyled
columns weather the invariant: afterwards unclaimed columns carry the
`Untouched` style. -/
theorem calcInv_untouchedStep (len : Nat) (u0 : SymbolStyle) (claimed : Nat → Bool)
    (st : AList × List Nat) (hinv : CalcInv len u0 false claimed st) :
    CalcInv len u0 true claimed
      (st.2.foldl (fun m x => insertA m x u0) st.1, st.2) := by
  obtain ⟨hnd, hmem, hunc, hcl⟩ := hinv
  refine ⟨hnd, hmem, ?_, ?_⟩
  · intro x hx hc
    simp only
    rw [getA_foldl_insert, if_pos ((hmem x hx).mpr hc)]
    simp
  · intro x hx hc
    simp only
    have hnx : x ∉ st.2 := by
      rw [hmem x hx, hc]
      simp
    rw [getA_foldl_insert, if_neg hnx]
    exact hcl x hx hc

/-- The full characterization of the `calculate_symbol_styles` fold: given a
rule suffix containing exactly one `Untouched` rule (unless one already ran),
whose style differs from every other rule's style, a successful fold ends
with the `Untouched` style on exactly the columns claimed by no
higher-priority rule — and with the unstyled set holding exactly those same
columns. -/
theorem calc_foldlM_characterization (len : Nat) (u0 : SymbolStyle) :
    ∀ (rules : List (Target × SymbolStyle)) (st : AList × List Nat)
      (hasU : Bool) (claimed : Nat → Bool) (res : AList × List Nat),
      CalcInv len u0 hasU claimed st →
      (rules.filter (fun r => isUntouched r.1)
        = if hasU then [] else [(Target.Untouched, u0)]) →
      (∀ r ∈ rules, isUntouched r.1 = false → r.2 ≠ u0) →
      rules.foldlM (calcRule len) st = some res →
      ∀ x, x < len →
        ((getA res.1 x = some u0 ↔ (claimed x = false ∧ claimedB rules x = false)) ∧
         (x ∈ res.2 ↔ (claimed x = false ∧ claimedB rules x = false))) := by
  intro rules
  induction rules with
  | nil =>
      intro st hasU claimed res hinv hone hdist hfold x hx
      rw [List.foldlM_nil] at hfold
      injection hfold with hfold
      subst hfold
      obtain ⟨hnd, hmem, hunc, hcl⟩ := hinv
      cases hasU with
      | false => simp at hone
      | true =>
          simp only [claimedB, List.any_nil, and_true]
          constructor
          · constructor
            · intro hg
              by_cases hcx : claimed x = false
              · exact hcx
              · obtain ⟨s, hgs, hne⟩ :=
                  hcl x hx (by revert hcx; cases claimed x <;> simp)
                rw [hg] at hgs
                injection hgs with hgs
                exact absurd hgs.symm hne
            · intro hcx
              rw [hunc x hx hcx]
              simp
          · exact hmem x hx
  | cons r rest ih =>
      intro st hasU claimed res hinv hone hdist hfold x hx
      rw [List.foldlM_cons] at hfold
      cases hc : calcRule len st r with
      | none =>
          rw [hc] at hfold
          exact Option.noConfusion hfold
      | some st' =>
          rw [hc] at hfold
          replace hfold : rest.foldlM (calcRule len) st' = some res := hfold
          obtain ⟨t, s⟩ := r
          cases t with
          | Untouched =>
              cases hasU with
              | true => simp [List.filter_cons, isUntouched] at hone
              | false =>
                  replace hone : (Target.Untouched, s) ::
                      List.filter (fun r => isUntouched r.1) rest
                      = [(Target.Untouched, u0)] := hone
                  have hs : s = u0 := by
                    injection hone with h1 h2
                    injection h1 with h1a h1b
                  have hrest : List.filter (fun r => isUntouched r.1) rest = [] := by
                    injection hone
                  unfold calcRule at hc
                  simp only at hc
                  injection hc with hc
                  rw [hs] at hc
                  subst hc
                  have hinv' := calcInv_untouchedStep len u0 claimed st hinv
                  have hres := ih _ true claimed res hinv' (by simp [hrest])
                    (fun r hr => hdist r (List.mem_cons_of_mem _ hr)) hfold x hx
                  rw [claimedB_cons_untouched]
                  exact hres
          | Single y =>
              have hts : isUntouched (Target.Single y) = false := rfl
              have hsne : s ≠ u0 :=
                hdist (Target.Single y, s) (List.mem_cons_self _ _) hts
              have hone' : rest.filter (fun r => isUntouched r.1)
                  = if hasU then [] else [(Target.Untouched, u0)] := by
                rw [List.filter_cons] at hone
                simpa [hts] using hone
              unfold calcRule at hc
              simp only at hc
              injection hc with hc
              have hxs : ∀ z, z < len →
                  (z ∈ [y] ↔ touchesB (Target.Single y) z = true) := by
                intro z hz
                simp [touchesB]
              have hinv' := calcInv_stepIns len u0 s (Target.Single y) [y] st hasU
                claimed hsne hxs hinv
              rw [show List.foldl (stepIns s) st [y] = stepIns s st y from rfl] at hinv'
              rw [hc] at hinv'
              have hres := ih st' hasU _ res hinv' hone'
                (fun r hr => hdist r (List.mem_cons_of_mem _ hr)) hfold x hx
              have hEq : ((claimed x || touchesB (Target.Single y) x) = false ∧
                  claimedB rest x = false) ↔
                  (claimed x = false ∧ claimedB ((Target.Single y, s) :: rest) x = false) := by
                rw [claimedB_cons_eq _ _ _ _ hts]
                exact shift_claim _ _ _
              exact ⟨hres.1.trans hEq, hres.2.trans hEq⟩
          | Range a b =>
              have hts : isUntouched (Target.Range a b) = false := rfl
              have hsne : s ≠ u0 :=
                hdist (Target.Range a b, s) (List.mem_cons_self _ _) hts
              have hone' : rest.filter (fun r => isUntouched r.1)
                  = if hasU then [] else [(Target.Untouched, u0)] := by
                rw [List.filter_cons] at hone
                simpa [hts] using hone
              unfold calcRule at hc
              simp only at hc
              injection hc with hc
              have hxs : ∀ z, z < len →
                  (z ∈ List.range' a (b - a) ↔ touchesB (Target.Range a b) z = true) := by
                intro z hz
                rw [List.mem_range'_1]
                simp only [touchesB, Bool.and_eq_true, decide_eq_true_eq]
                omega
              have hinv' := calcInv_stepIns len u0 s (Target.Range a b)
                (List.range' a (b - a)) st hasU claimed hsne hxs hinv
              rw [hc] at hinv'
              have hres := ih st' hasU _ res hinv' hone'
                (fun r hr => hdist r (List.mem_cons_of_mem _ hr)) hfold x hx
              have hEq : ((claimed x || touchesB (Target.Range a b) x) = false ∧
                  claimedB rest x = false) ↔
                  (claimed x = false ∧ claimedB ((Target.Range a b, s) :: rest) x = false) := by
                rw [claimedB_cons_eq _ _ _ _ hts]
                exact shift_claim _ _ _
              exact ⟨hres.1.trans hEq, hres.2.trans hEq⟩
          | Every n =>
              have hts : isUntouched (Target.Every n) = false := rfl
              have hsne : s ≠ u0 :=
                hdist (Target.Every n, s) (List.mem_cons_self _ _) hts
              have hone' : rest.filter (fun r => isUntouched r.1)
                  = if hasU then [] else [(Target.Untouched, u0)] := by
                rw [List.filter_cons] at hone
                simpa [hts] using hone
              unfold calcRule at hc
              by_cases hn : n = 0
              · subst hn
                simp [stepBy] at hc
              · simp only [stepBy, if_neg hn, Option.map_some] at hc
                injection hc with hc
                replace hc : List.foldl (stepIns s) st (stepByAux n (List.range len))
                    = st' := hc
                have hxs : ∀ z, z < len →
                    (z ∈ stepByAux n (List.range len) ↔
                      touchesB (Target.Every n) z = true) := by
                  intro z hz
                  rw [mem_stepByAux_range n len z (Nat.pos_of_ne_zero hn)]
                  simp only [touchesB, Bool.and_eq_true, bne_iff_ne, ne_eq,
                    beq_iff_eq]
                  constructor
                  · rintro ⟨h1, h2⟩
                    exact ⟨hn, h2⟩
                  · rintro ⟨h1, h2⟩
                    exact ⟨hz, h2⟩
                have hinv' := calcInv_stepIns len u0 s (Target.Every n)
                  (stepByAux n (List.range len)) st hasU claimed hsne hxs hinv
                rw [hc] at hinv'
                have hres := ih st' hasU _ res hinv' hone'
                  (fun r hr => hdist r (List.mem_cons_of_mem _ hr)) hfold x hx
                have hEq : ((claimed x || touchesB (Target.Every n) x) = false ∧
                    claimedB rest x = false) ↔
                    (claimed x = false ∧ claimedB ((Target.Every n, s) :: rest) x = false) := by
                  rw [claimedB_cons_eq _ _ _ _ hts]
                  exact shift_claim _ _ _
                exact ⟨hres.1.trans hEq, hres.2.trans hEq⟩
          | AllExceptEvery n =>
              have hts : isUntouched (Target.AllExceptEvery n) = false := rfl
              have hsne : s ≠ u0 :=
                hdist (Target.AllExceptEvery n, s) (List.mem_cons_self _ _) hts
              have hone' : rest.filter (fun r => isUntouched r.1)
                  = if hasU then [] else [(Target.Untouched, u0)] := by
                rw [List.filter_cons] at hone
                simpa [hts] using hone
              unfold calcRule at hc
              simp only at hc
              cases hae : allExceptList (List.range len) n with
              | none =>
                  rw [hae] at hc
                  exact Option.noConfusion hc
              | some xs =>
                  rw [hae] at hc
                  replace hc : some (List.foldl (stepIns s) st xs) = some st' := hc
                  injection hc with hc
                  have hxs : ∀ z, z < len →
                      (z ∈ xs ↔ touchesB (Target.AllExceptEvery n) z = true) := by
                    intro z hz
                    by_cases hn : n = 0
                    · subst hn
                      unfold allExceptList at hae
                      by_cases hl : List.range len = []
                      · rw [List.range_eq_nil] at hl
                        omega
                      · simp [hl] at hae
                    · rw [mem_allExceptList n len z hn xs hae]
                      simp only [touchesB, Bool.and_eq_true, bne_iff_ne, ne_eq]
                      constructor
                      · rintro ⟨h1, h2⟩
                        exact ⟨hn, h2⟩
                      · rintro ⟨h1, h2⟩
                        exact ⟨hz, h2⟩
                  have hinv' := calcInv_stepIns len u0 s (Target.AllExceptEvery n)
                    xs st hasU claimed hsne hxs hinv
                  rw [hc] at hinv'
                  have hres := ih st' hasU _ res hinv' hone'
                    (fun r hr => hdist r (List.mem_cons_of_mem _ hr)) hfold x hx
                  have hEq : ((claimed x || touchesB (Target.AllExceptEvery n) x) = false ∧
                      claimedB rest x = false) ↔
                      (claimed x = false ∧
                        claimedB ((Target.AllExceptEvery n, s) :: rest) x = false) := by
                    rw [claimedB_cons_eq _ _ _ _ hts]
                    exact shift_claim _ _ _
                  exact ⟨hres.1.trans hEq, hres.2.trans hEq⟩

/-! Frame-effect lemmas: every buffer mutation the widget performs is a
`writeSym` at a canvas symbol's cell, so modifiers survive and cells off the
written row or outside the canvas survive untouched. -/

/-- `Tame` is reflexive. -/
theorem tame_refl (canvas : Nat → Option Symbol) (y : Nat) (b : Buffer) :
    Tame canvas y b b :=
  fun _ => ⟨rfl, fun _ => rfl⟩

/-- `Tame` composes. -/
theorem tame_comp {canvas : Nat → Option Symbol} {y : Nat} {b1 b2 b3 : Buffer}
    (h1 : Tame canvas y b1 b2) (h2 : Tame canvas y b2 b3) : Tame canvas y b1 b3 :=
  fun p => ⟨((h2 p).1).trans (h1 p).1, fun hp => ((h2 p).2 hp).trans ((h1 p).2 hp)⟩

/-- A single symbol write is tame. -/
theorem tame_writeSym {canvas : Nat → Option Symbol} {y : Nat} (b : Buffer)
    {i : Nat} {sym : Symbol} (hc : canvas i = some sym) (s : SymbolStyle) :
    Tame canvas y b (writeSym y b sym s) := by
  intro p
  constructor
  · by_cases hp : p = (sym.real_x, y)
    · subst hp
      unfold writeSym
      rw [if_pos rfl]
    · unfold writeSym
      rw [if_neg hp]
  · intro hout
    unfold writeSym
    rw [if_neg (hout i sym hc)]

/-- The buffer component of a `styleOne` fold is tame. -/
theorem tame_foldl_styleOne (canvas : Nat → Option Symbol) (y : Nat)
    (s : SymbolStyle) (xs : List Nat) :
    ∀ acc : Buffer × List Nat,
      Tame canvas y acc.1 ((xs.foldl (styleOne y canvas s) acc).1) := by
  induction xs with
  | nil => intro acc; exact tame_refl _ _ _
  | cons a xs ih =>
      intro acc
      rw [List.foldl_cons]
      refine tame_comp ?_ (ih (styleOne y canvas s acc a))
      unfold styleOne
      cases hc : canvas a with
      | none => exact tame_refl _ _ _
      | some sym => exact tame_writeSym acc.1 hc s

/-- The `Untouched` write loop of `apply_styles` is tame. -/
theorem tame_foldl_untouchedWrites (canvas : Nat → Option Symbol) (y : Nat)
    (s : SymbolStyle) (u : List Nat) :
    ∀ b : Buffer,
      Tame canvas y b (u.foldl (fun b x =>
        match canvas x with
        | some sym => writeSym y b sym s
        | none => b) b) := by
  induction u with
  | nil => intro b; exact tame_refl _ _ _
  | cons a u ih =>
      intro b
      rw [List.foldl_cons]
      refine tame_comp ?_ (ih _)
      show Tame canvas y b
        (match canvas a with
          | some sym => writeSym y b sym s
          | none => b)
      cases hc : canvas a with
      | none => exact tame_refl _ _ _
      | some sym => exact tame_writeSym b hc s

/-- Every `apply_styles` rule is tame. -/
theorem tame_applyRule (len y : Nat) (canvas : Nat → Option Symbol)
    (r : Target × SymbolStyle) (acc acc' : Buffer × List Nat)
    (h : applyRule len y canvas acc r = some acc') :
    Tame canvas y acc.1 acc'.1 := by
  obtain ⟨t, s⟩ := r
  cases t with
  | Single x =>
      replace h : some (styleOne y canvas s acc x) = some acc' := h
      injection h with h
      subst h
      exact tame_foldl_styleOne canvas y s [x] acc
  | Range a b =>
      replace h : some ((List.range' a (b - a)).foldl (styleOne y canvas s) acc)
        = some acc' := h
      injection h with h
      subst h
      exact tame_foldl_styleOne canvas y s _ acc
  | Every n =>
      unfold applyRule at h
      simp only at h
      cases hsb : stepBy (List.range len) n with
      | none => rw [hsb] at h; exact Option.noConfusion h
      | some xs =>
          rw [hsb] at h
          replace h : some (xs.foldl (styleOne y canvas s) acc) = some acc' := h
          injection h with h
          subst h
          exact tame_foldl_styleOne canvas y s xs acc
  | AllExceptEvery n =>
      unfold applyRule at h
      simp only at h
      cases hae : allExceptList (List.range len) n with
      | none => rw [hae] at h; exact Option.noConfusion h
      | some xs =>
          rw [hae] at h
          replace h : some (xs.foldl (styleOne y canvas s) acc) = some acc' := h
          injection h with h
          subst h
          exact tame_foldl_styleOne canvas y s xs acc
  | Untouched =>
      replace h : some (acc.2.foldl (fun b x =>
        match canvas x with
        | some sym => writeSym y b sym s
        | none => b) acc.1, acc.2) = some acc' := h
      injection h with h
      subst h
      exact tame_foldl_untouchedWrites canvas y s acc.2 acc.1

/-- The whole rule fold of `apply_styles` is tame. -/
theorem tame_foldlM_rules (len y : Nat) (canvas : Nat → Option Symbol)
    (rules : List (Target × SymbolStyle)) :
    ∀ acc acc' : Buffer × List Nat,
      rules.foldlM (applyRule len y canvas) acc = some acc' →
      Tame canvas y acc.1 acc'.1 := by
  induction rules with
  | nil =>
      intro acc acc' h
      rw [List.foldlM_nil] at h
      injection h with h
      subst h
      exact tame_refl _ _ _
  | cons r rest ih =>
      intro acc acc' h
      rw [List.foldlM_cons] at h
      cases hc : applyRule len y canvas acc r with
      | none => rw [hc] at h; exact Option.noConfusion h
      | some acc1 =>
          rw [hc] at h
          replace h : rest.foldlM (applyRule len y canvas) acc1 = some acc' := h
          exact tame_comp (tame_applyRule len y canvas r acc acc1 hc) (ih acc1 acc' h)

/-- `apply_styles` is tame. -/
theorem tame_applyStyles (rules : List (Target × SymbolStyle)) (len y : Nat)
    (canvas : Nat → Option Symbol) (keys : List Nat) (buf buf' : Buffer)
    (h : applyStyles rules len y canvas keys buf = some buf') :
    Tame canvas y buf buf' := by
  unfold applyStyles at h
  cases hf : rules.foldlM (applyRule len y canvas) (buf, keys) with
  | none => rw [hf] at h; exact Option.noConfusion h
  | some acc =>
      rw [hf] at h
      replace h : some acc.1 = some buf' := h
      injection h with h
      subst h
      exact tame_foldlM_rules len y canvas rules (buf, keys) acc hf

/-- The animation frame write loop is tame. -/
theorem tame_applyFrame (canvas : Nat → Option Symbol) (y : Nat) (frame : Frame) :
    ∀ buf : Buffer, Tame canvas y buf (applyFrame y canvas frame buf) := by
  unfold applyFrame
  generalize frame.symbol_styles = l
  induction l with
  | nil => intro buf; exact tame_refl _ _ _
  | cons a l ih =>
      intro buf
      rw [List.foldl_cons]
      refine tame_comp ?_ (ih _)
      show Tame canvas y buf
        (match canvas a.1 with
          | some sym => writeSym y buf sym a.2
          | none => buf)
      cases hc : canvas a.1 with
      | none => exact tame_refl _ _ _
      | some sym => exact tame_writeSym buf hc a.2

/-- Every successful render is tame with respect to its virtual canvas. -/
theorem tame_render {K : Type} [DecidableEq K] (w : SmallTextWidget K)
    (elapsed : Nat) (area : Rect) (buf : Buffer) (w' : SmallTextWidget K)
    (buf' : Buffer)
    (h : w.render elapsed area buf = some (w', buf')) :
    Tame (virtualCanvas area w.text (min area.width w.text_char_count)) area.y
      buf buf' := by
  unfold SmallTextWidget.render at h
  cases ha : w.active_animation with
  | none =>
      rw [ha] at h
      simp only [] at h
      cases hs : applyStyles w.symbol_styles w.text_char_count area.y
          (virtualCanvas area w.text (min area.width w.text_char_count))
          (List.range (min (min area.width w.text_char_count) w.text.length)) buf with
      | none => rw [hs] at h; exact Option.noConfusion h
      | some b =>
          rw [hs] at h
          replace h : some (w, b) = some (w', buf') := h
          injection h with h
          injection h with h1 h2
          subst h2
          exact tame_applyStyles _ _ _ _ _ _ _ hs
  | some anim =>
      rw [ha] at h
      simp only [] at h
      rcases hnf : anim.nextFrame elapsed with ⟨fr, a2⟩
      rw [hnf] at h
      cases fr with
      | none =>
          cases hs : applyStyles w.symbol_styles w.text_char_count area.y
              (virtualCanvas area w.text (min area.width w.text_char_count))
              (List.range (min (min area.width w.text_char_count) w.text.length)) buf with
          | none => rw [hs] at h; exact Option.noConfusion h
          | some b =>
              rw [hs] at h
              replace h : some ({ w with active_animation := none }, b)
                = some (w', buf') := h
              injection h with h
              injection h with h1 h2
              subst h2
              exact tame_applyStyles _ _ _ _ _ _ _ hs
      | some frame =>
          replace h : some ({ w with active_animation := some a2 },
            applyFrame area.y
              (virtualCanvas area w.text (min area.width w.text_char_count)) frame buf)
            = some (w', buf') := h
          injection h with h
          injection h with h1 h2
          subst h2
          exact tame_applyFrame _ _ frame buf

/-- Unpacking a virtual-canvas hit: the column is visible and drawn at the
area origin plus the logical column. -/
theorem virtualCanvas_some (area : Rect) (text : List Char) (avail i : Nat)
    (sym : Symbol) (h : virtualCanvas area text avail i = some sym) :
    i < avail ∧ sym.real_x = area.x + i := by
  unfold virtualCanvas at h
  by_cases hi : i < avail
  · rw [if_pos hi] at h
    cases hg : text.get? i with
    | none => rw [hg] at h; exact Option.noConfusion h
    | some c =>
        rw [hg] at h
        replace h : some { real_x := area.x + i, value := c } = some sym := h
        injection h with h
        subst h
        exact ⟨hi, rfl⟩
  · rw [if_neg hi] at h
    exact Option.noConfusion h

/-- A `styleOne` fold over columns avoiding `x0` leaves the cell of logical
column `x0` untouched. -/
theorem foldl_styleOne_preserves_at (area : Rect) (text : List Char)
    (avail y : Nat) (s : SymbolStyle) (x0 : Nat) :
    ∀ (xs : List Nat) (acc : Buffer × List Nat), x0 ∉ xs →
      ((xs.foldl (styleOne y (virtualCanvas area text avail) s) acc).1)
          (area.x + x0, y)
        = acc.1 (area.x + x0, y) := by
  intro xs
  induction xs with
  | nil => intro acc _; rfl
  | cons a xs ih =>
      intro acc hx0
      have hane : a ≠ x0 := fun he => hx0 (he ▸ List.mem_cons_self a xs)
      rw [List.foldl_cons, ih _ (fun hm => hx0 (List.mem_cons_of_mem _ hm))]
      unfold styleOne
      cases hc : virtualCanvas area text avail a with
      | none => rfl
      | some sym =>
          show writeSym y acc.1 sym s (area.x + x0, y) = acc.1 (area.x + x0, y)
          obtain ⟨hi, hrx⟩ := virtualCanvas_some area text avail a sym hc
          unfold writeSym
          rw [if_neg ?hne]
          case hne =>
            intro heq
            injection heq with h1 h2
            rw [hrx] at h1
            exact hane (by omega)

/-- A rule that may not touch column `x0` leaves that column's cell
untouched. -/
theorem applyRule_preserves_at (len y : Nat) (area : Rect) (text : List Char)
    (avail x0 : Nat) (r : Target × SymbolStyle) (acc acc' : Buffer × List Nat)
    (hmt : mayTouch r.1 x0 = false)
    (h : applyRule len y (virtualCanvas area text avail) acc r = some acc') :
    acc'.1 (area.x + x0, y) = acc.1 (area.x + x0, y) := by
  obtain ⟨t, s⟩ := r
  cases t with
  | Single ym =>
      replace h : some (styleOne y (virtualCanvas area text avail) s acc ym)
        = some acc' := h
      injection h with h
      subst h
      have hx : x0 ∉ [ym] := by
        simp only [mayTouch, beq_eq_false_iff_ne, ne_eq] at hmt
        simpa using hmt
      exact foldl_styleOne_preserves_at area text avail y s x0 [ym] acc hx
  | Range a b =>
      replace h : some ((List.range' a (b - a)).foldl
        (styleOne y (virtualCanvas area text avail) s) acc) = some acc' := h
      injection h with h
      subst h
      have hx : x0 ∉ List.range' a (b - a) := by
        rw [List.mem_range'_1]
        simp only [mayTouch, Bool.and_eq_false_iff, decide_eq_false_iff_not,
          not_lt] at hmt
        omega
      exact foldl_styleOne_preserves_at area text avail y s x0 _ acc hx
  | Every n =>
      unfold applyRule at h
      simp only at h
      cases hsb : stepBy (List.range len) n with
      | none => rw [hsb] at h; exact Option.noConfusion h
      | some xs =>
          rw [hsb] at h
          replace h : some (xs.foldl (styleOne y (virtualCanvas area text avail) s) acc)
            = some acc' := h
          injection h with h
          subst h
          have hn : n ≠ 0 := by
            intro hn0
            subst hn0
            simp [stepBy] at hsb
          have hxs : xs = stepByAux n (List.range len) := by
            unfold stepBy at hsb
            rw [if_neg hn] at hsb
            injection hsb with hsb
            exact hsb.symm
          subst hxs
          have hx : x0 ∉ stepByAux n (List.range len) := by
            rw [mem_stepByAux_range n len x0 (Nat.pos_of_ne_zero hn)]
            simp only [mayTouch, Bool.or_eq_false_iff, beq_eq_false_iff_ne, ne_eq] at hmt
            intro hcon
            exact hmt.2 hcon.2
          exact foldl_styleOne_preserves_at area text avail y s x0 _ acc hx
  | AllExceptEvery n =>
      unfold applyRule at h
      simp only at h
      cases hae : allExceptList (List.range len) n with
      | none => rw [hae] at h; exact Option.noConfusion h
      | some xs =>
          rw [hae] at h
          replace h : some (xs.foldl (styleOne y (virtualCanvas area text avail) s) acc)
            = some acc' := h
          injection h with h
          subst h
          simp only [mayTouch, Bool.or_eq_false_iff, beq_eq_false_iff_ne, ne_eq,
            bne_eq_false_iff_eq] at hmt
          have hx : x0 ∉ xs := by
            rw [mem_allExceptList n len x0 hmt.1 xs hae]
            intro hcon
            exact hcon.2 hmt.2
          exact foldl_styleOne_preserves_at area text avail y s x0 _ acc hx
  | Untouched => simp [mayTouch] at hmt

/-- The rule fold of `apply_styles` leaves the cell of a column no rule may
touch untouched. -/
theorem foldlM_rules_preserves_at (len y : Nat) (area : Rect) (text : List Char)
    (avail x0 : Nat) (rules : List (Target × SymbolStyle)) :
    ∀ acc acc' : Buffer × List Nat,
      (∀ r ∈ rules, mayTouch r.1 x0 = false) →
      rules.foldlM (applyRule len y (virtualCanvas area text avail)) acc = some acc' →
      acc'.1 (area.x + x0, y) = acc.1 (area.x + x0, y) := by
  induction rules with
  | nil =>
      intro acc acc' _ h
      rw [List.foldlM_nil] at h
      injection h with h
      subst h
      rfl
  | cons r rest ih =>
      intro acc acc' hall h
      rw [List.foldlM_cons] at h
      cases hc : applyRule len y (virtualCanvas area text avail) acc r with
      | none => rw [hc] at h; exact Option.noConfusion h
      | some acc1 =>
          rw [hc] at h
          replace h : rest.foldlM (applyRule len y (virtualCanvas area text avail)) acc1
            = some acc' := h
          rw [ih acc1 acc' (fun q hq => hall q (List.mem_cons_of_mem _ hq)) h]
          exact applyRule_preserves_at len y area text avail x0 r acc acc1
            (hall r (List.mem_cons_self _ _)) hc

/-- `apply_styles` leaves the cell of a column no rule may touch untouched. -/
theorem applyStyles_preserves_at (rules : List (Target × SymbolStyle))
    (len y : Nat) (area : Rect) (text : List Char) (avail x0 : Nat)
    (keys : List Nat) (buf buf' : Buffer)
    (hall : ∀ r ∈ rules, mayTouch r.1 x0 = false)
    (h : applyStyles rules len y (virtualCanvas area text avail) keys buf = some buf') :
    buf' (area.x + x0, y) = buf (area.x + x0, y) := by
  unfold applyStyles at h
  cases hf : rules.foldlM (applyRule len y (virtualCanvas area text avail))
      (buf, keys) with
  | none => rw [hf] at h; exact Option.noConfusion h
  | some acc =>
      rw [hf] at h
      replace h : some acc.1 = some buf' := h
      injection h with h
      subst h
      exact foldlM_rules_preserves_at len y area text avail x0 rules (buf, keys)
        acc hall hf

/-- The frame write loop leaves the cell of a column the frame does not map
untouched. -/
theorem applyFrame_preserves_at (y : Nat) (area : Rect) (text : List Char)
    (avail x0 : Nat) (frame : Frame) (buf : Buffer)
    (hx0 : x0 ∉ frame.symbol_styles.map Prod.fst) :
    applyFrame y (virtualCanvas area text avail) frame buf (area.x + x0, y)
      = buf (area.x + x0, y) := by
  unfold applyFrame
  revert hx0
  generalize frame.symbol_styles = l
  induction l generalizing buf with
  | nil => intro _; rfl
  | cons a l ih =>
      intro hx0
      rw [List.foldl_cons]
      have hx0' : x0 ≠ a.1 ∧ x0 ∉ l.map Prod.fst := by
        simp only [List.map_cons, List.mem_cons, not_or] at hx0
        exact hx0
      rw [ih _ hx0'.2]
      show (match virtualCanvas area text avail a.1 with
        | some sym => writeSym y buf sym a.2
        | none => buf) (area.x + x0, y) = buf (area.x + x0, y)
      cases hc : virtualCanvas area text avail a.1 with
      | none => rfl
      | some sym =>
          obtain ⟨hi, hrx⟩ := virtualCanvas_some area text avail a.1 sym hc
          have hane : a.1 ≠ x0 := fun he => hx0'.1 he.symm
          show writeSym y buf sym a.2 (area.x + x0, y) = buf (area.x + x0, y)
          unfold writeSym
          rw [if_neg ?hne2]
          case hne2 =>
            intro heq
            injection heq with h1 h2
            rw [hrx] at h1
            exact hane (by omega)

/-! Claim theorems. -/

/-- C1, counterexample: the claim says the rule list is sorted at
construction in descending specificity (`Single` first, `Untouched` last)
and iterated in that order.  On the concrete rule set
`[(Single 0, A), (Untouched, B)]` the constructed widget's rule list starts
with `Untouched`: Rust's `sort_by` sorts ascending with respect to
`targets_sorter`, which is the exact opposite of the claimed order. -/
theorem new_not_sorted_descending_cex :
    (SmallTextWidget.new (K := Nat)
        { text := ['A', 'B']
          symbol_styles := [(Target.Single 0, exStyleA), (Target.Untouched, exStyleB)]
          animation_styles := [] }).symbol_styles
      = [(Target.Untouched, exStyleB), (Target.Single 0, exStyleA)] ∧
    (SmallTextWidget.new (K := Nat)
        { text := ['A', 'B']
          symbol_styles := [(Target.Single 0, exStyleA), (Target.Untouched, exStyleB)]
          animation_styles := [] }).symbol_styles
      ≠ [(Target.Single 0, exStyleA), (Target.Untouched, exStyleB)] := by
  constructor
  · simp [SmallTextWidget.new, List.mergeSort, List.merge] <;> decide
  · simp [SmallTextWidget.new, List.mergeSort, List.merge] <;> decide

/-- The comparator accepted by the sort agrees with priority order. -/
theorem targets_sorter_ne_gt_iff (a b : Target) :
    (targets_sorter a b ≠ Ordering.gt) ↔ targetPriority a ≤ targetPriority b := by
  unfold targets_sorter
  rw [ne_eq, Nat.compare_eq_gt]
  omega

/-- C1, amended: for every rule set passed at construction, the widget's rule
list is sorted once, at construction, by target priority — but in ascending
specificity (`Untouched < AllExceptEvery < Every < Range < Single`), so that
during style resolution the least specific rules are iterated first and more
specific rules, applied later, overwrite them.  The sorted list is a
permutation of the given rules. -/
theorem new_sorts_rules_by_ascending_priority {K : Type} (style : SmallTextStyle K) :
    List.Sorted (fun a b : Target × SymbolStyle => targetPriority a.1 ≤ targetPriority b.1)
      (SmallTextWidget.new style).symbol_styles ∧
    ((SmallTextWidget.new style).symbol_styles).Perm style.symbol_styles := by
  constructor
  · have h := @List.sorted_mergeSort (Target × SymbolStyle)
      (fun a b => decide (targets_sorter a.1 b.1 ≠ Ordering.gt))
      (fun a b c hab hbc => by
        simp only [decide_eq_true_eq, targets_sorter_ne_gt_iff] at hab hbc ⊢
        omega)
      (fun a b => by
        simp only [Bool.or_eq_true, decide_eq_true_eq, targets_sorter_ne_gt_iff]
        omega)
      style.symbol_styles
    refine List.Pairwise.imp ?_ h
    intro a b hab
    simpa only [decide_eq_true_eq, targets_sorter_ne_gt_iff] using hab
  · exact List.mergeSort_perm style.symbol_styles _

/-- C2: the claim says `Every(0)` and `AllExceptEvery(0)` rules contribute no
columns and resolution never crashes.  In the code both panic —
`Iterator::step_by(0)` asserts, and `x % 0` is a divide-by-zero — modelled
here as `none`.  Both `calculate_symbol_styles` (the `enable_animation`
path) and `apply_styles` (the render path) crash on a length-5 text. -/
theorem zero_stride_rules_panic :
    calculate_symbol_styles [(Target.Every 0, exStyleA)] 5 = none ∧
    calculate_symbol_styles [(Target.AllExceptEvery 0, exStyleA)] 5 = none ∧
    applyStyles [(Target.Every 0, exStyleA)] 5 1 (virtualCanvas exArea exText 5)
      (List.range 5) exBuf = none ∧
    applyStyles [(Target.AllExceptEvery 0, exStyleA)] 5 1 (virtualCanvas exArea exText 5)
      (List.range 5) exBuf = none := by
  exact ⟨rfl, rfl, rfl, rfl⟩

/-- C4: on the render pass in which the active animation's `next_frame`
signals completion, `render` clears the active animation and, in the same
pass, falls back to full static resolution: its result is exactly
`apply_styles` on the static rules paired with the widget with its animation
disabled. -/
theorem render_completion_falls_back_to_static {K : Type} [DecidableEq K]
    (w : SmallTextWidget K) (anim : Animation) (elapsed : Nat) (area : Rect)
    (buf : Buffer)
    (h1 : w.active_animation = some anim)
    (h2 : (anim.nextFrame elapsed).1 = none) :
    w.render elapsed area buf =
      (applyStyles w.symbol_styles w.text_char_count area.y
          (virtualCanvas area w.text (min area.width w.text_char_count))
          (List.range (min (min area.width w.text_char_count) w.text.length)) buf).map
        (fun b => (w.disable_animation, b)) := by
  unfold SmallTextWidget.render
  rw [h1]
  rcases hf : anim.nextFrame elapsed with ⟨fr, a2⟩
  rw [hf] at h2
  simp only at h2
  subst h2
  simp only []
  rw [hf]
  rfl

/-- C4 witness: a concrete widget whose active animation has completed. -/
theorem render_completion_falls_back_to_static_witness :
    exWidgetDone.render 0 exArea exBuf =
      (applyStyles exWidgetDone.symbol_styles exWidgetDone.text_char_count exArea.y
          (virtualCanvas exArea exWidgetDone.text
            (min exArea.width exWidgetDone.text_char_count))
          (List.range (min (min exArea.width exWidgetDone.text_char_count)
            exWidgetDone.text.length)) exBuf).map
        (fun b => (exWidgetDone.disable_animation, b)) :=
  render_completion_falls_back_to_static exWidgetDone exDoneAnim 0 exArea exBuf rfl rfl

/-- C5: `enable_animation` with a key absent from the animation-styles map
leaves the whole widget state unchanged, including any previously active
animation. -/
theorem enable_animation_unknown_key_noop {K : Type} [DecidableEq K]
    (w : SmallTextWidget K) (key : K)
    (h : lookupAnim w.animation_styles key = none) :
    w.enable_animation key = some w := by
  unfold SmallTextWidget.enable_animation
  rw [h]

/-- C5 witness: a widget with a running animation and a registered key 7 is
unchanged by enabling the absent key 8. -/
theorem enable_animation_unknown_key_noop_witness :
    lookupAnim exWidgetDone.animation_styles 8 = none ∧
    exWidgetDone.enable_animation 8 = some exWidgetDone :=
  ⟨rfl, enable_animation_unknown_key_noop exWidgetDone 8 rfl⟩

/-- C6: enabling an animation and then immediately disabling it restores
exactly the original widget state — `enable_animation` mutates only the
active-animation field and `disable_animation` resets it to `none` — and the
subsequent render runs static resolution, producing exactly the buffer that
a render of the never-enabled widget produces. -/
theorem enable_disable_roundtrip_is_static {K : Type} [DecidableEq K]
    (w w' : SmallTextWidget K) (k : K)
    (h0 : w.active_animation = none)
    (h1 : w.enable_animation k = some w') :
    w'.disable_animation = w ∧
    ∀ elapsed area buf,
      (w'.disable_animation).render elapsed area buf = w.render elapsed area buf ∧
      w.render elapsed area buf =
        (applyStyles w.symbol_styles w.text_char_count area.y
            (virtualCanvas area w.text (min area.width w.text_char_count))
            (List.range (min (min area.width w.text_char_count) w.text.length)) buf).map
          (fun b => (w, b)) := by
  have hd : w'.disable_animation = w := by
    unfold SmallTextWidget.enable_animation at h1
    cases hl : lookupAnim w.animation_styles k with
    | none =>
        rw [hl] at h1
        injection h1 with h1
        subst h1
        obtain ⟨t, c, ss, aa, as⟩ := w
        simp only at h0
        subst h0
        rfl
    | some st =>
        rw [hl] at h1
        cases hc : calculate_symbol_styles w.symbol_styles w.text_char_count with
        | none => rw [hc] at h1; exact absurd h1 (by simp)
        | some ss =>
            rw [hc] at h1
            simp only [Option.map_some] at h1
            injection h1 with h1
            subst h1
            obtain ⟨t, c, sss, aa, as⟩ := w
            simp only at h0
            subst h0
            rfl
  have hr : ∀ elapsed area buf,
      w.render elapsed area buf =
        (applyStyles w.symbol_styles w.text_char_count area.y
            (virtualCanvas area w.text (min area.width w.text_char_count))
            (List.range (min (min area.width w.text_char_count) w.text.length)) buf).map
          (fun b => (w, b)) := by
    intro elapsed area buf
    unfold SmallTextWidget.render
    rw [h0]
  exact ⟨hd, fun elapsed area buf => ⟨by rw [hd], hr elapsed area buf⟩⟩

/-- C6 witness: the concrete round trip on `exWidget`. -/
theorem enable_disable_roundtrip_is_static_witness :
    exWidget.enable_animation 7 = some exWidgetEnabled ∧
    exWidgetEnabled.disable_animation = exWidget ∧
    (exWidgetEnabled.disable_animation).render 3 exArea exBuf =
      exWidget.render 3 exArea exBuf ∧
    exWidget.render 3 exArea exBuf =
      (applyStyles exWidget.symbol_styles exWidget.text_char_count exArea.y
          (virtualCanvas exArea exWidget.text (min exArea.width exWidget.text_char_count))
          (List.range (min (min exArea.width exWidget.text_char_count)
            exWidget.text.length)) exBuf).map
        (fun b => (exWidget, b)) :=
  ⟨by rfl,
   (enable_disable_roundtrip_is_static exWidget exWidgetEnabled 7 rfl (by rfl)).1,
   ((enable_disable_roundtrip_is_static exWidget exWidgetEnabled 7 rfl (by rfl)).2 3 exArea exBuf).1,
   ((enable_disable_roundtrip_is_static exWidget exWidgetEnabled 7 rfl (by rfl)).2 3 exArea exBuf).2⟩

/-- C3: for every rule list containing exactly one `Untouched` rule (whose
style differs from every other rule's style, so that carrying its style
identifies it) and every length, in the final resolved mapping the columns
carrying the `Untouched` style are exactly the columns in `0..length`
claimed by no higher-priority (`Single`/`Range`/`Every`/`AllExceptEvery`)
rule; and the cumulative unstyled set of the same resolution pass — the set
`Untouched` is resolved against — ends as exactly that same set of
columns. -/
theorem untouched_style_marks_exactly_unclaimed_columns
    (rules : List (Target × SymbolStyle)) (len : Nat) (u0 : SymbolStyle)
    (m : AList) (u : List Nat)
    (hone : rules.filter (fun r => isUntouched r.1) = [(Target.Untouched, u0)])
    (hdist : ∀ r ∈ rules, isUntouched r.1 = false → r.2 ≠ u0)
    (hfold : rules.foldlM (calcRule len) (([] : AList), List.range len) = some (m, u)) :
    calculate_symbol_styles rules len = some m ∧
    ∀ x, x < len →
      ((getA m x = some u0 ↔ claimedB rules x = false) ∧
       (x ∈ u ↔ claimedB rules x = false)) := by
  have hinv : CalcInv len u0 false (fun _ => false) (([] : AList), List.range len) := by
    refine ⟨List.nodup_range len, ?_, ?_, ?_⟩
    · intro x hx
      simp [List.mem_range, hx]
    · intro x hx _
      simp [getA]
    · intro x hx h
      cases h
  have hres := calc_foldlM_characterization len u0 rules _ false (fun _ => false)
    (m, u) hinv (by simpa using hone) hdist hfold
  constructor
  · unfold calculate_symbol_styles
    rw [hfold]
    rfl
  · intro x hx
    simpa using hres x hx

/-- C3 witness: the spec's two-character scenario — `Single(0)` styled A,
`Untouched` styled B — resolves column 0 to A and column 1 to B, with the
unstyled set ending as exactly the unclaimed column 1. -/
theorem untouched_style_marks_exactly_unclaimed_columns_witness :
    calculate_symbol_styles [(Target.Single 0, exStyleA), (Target.Untouched, exStyleB)] 2
      = some [(0, exStyleA), (1, exStyleB)] ∧
    (getA [(0, exStyleA), (1, exStyleB)] 0 = some exStyleB ↔
      claimedB [(Target.Single 0, exStyleA), (Target.Untouched, exStyleB)] 0 = false) ∧
    (getA [(0, exStyleA), (1, exStyleB)] 1 = some exStyleB ↔
      claimedB [(Target.Single 0, exStyleA), (Target.Untouched, exStyleB)] 1 = false) ∧
    (1 ∈ [1] ↔
      claimedB [(Target.Single 0, exStyleA), (Target.Untouched, exStyleB)] 1 = false) :=
  have h := untouched_style_marks_exactly_unclaimed_columns
    [(Target.Single 0, exStyleA), (Target.Untouched, exStyleB)] 2 exStyleB
    [(0, exStyleA), (1, exStyleB)] [1] (by rfl) (by decide) (by rfl)
  ⟨h.1, (h.2 0 (by decide)).1, (h.2 1 (by decide)).1, (h.2 1 (by decide)).2⟩

/-- C7: on a length-5 text, `Every(2)` selects exactly the columns
`{0, 2, 4}` and `AllExceptEvery(2)` selects exactly `{1, 3}` (column 0 is
excluded because `0 % 2 == 0`). -/
theorem every_two_and_all_except_every_two_on_length_five :
    (calculate_symbol_styles [(Target.Every 2, exStyleA)] 5).map (List.map Prod.fst)
      = some [0, 2, 4] ∧
    (calculate_symbol_styles [(Target.AllExceptEvery 2, exStyleB)] 5).map
        (List.map Prod.fst)
      = some [1, 3] := by
  exact ⟨rfl, rfl⟩

/-- C9: every successful render clamps to `min(area.width, text_char_count)`
and only ever writes cells on row `area.y` at physical columns in
`[area.x, area.x + clamp)` — cells off that row, left of the area, or at or
beyond the clamped visible width keep their previous contents, on both the
static and the animation path. -/
theorem render_clips_writes_to_visible_area {K : Type} [DecidableEq K]
    (w : SmallTextWidget K) (elapsed : Nat) (area : Rect) (buf : Buffer)
    (w' : SmallTextWidget K) (buf' : Buffer)
    (h : w.render elapsed area buf = some (w', buf'))
    (px py : Nat)
    (hp : py ≠ area.y ∨ px < area.x ∨
      area.x + min area.width w.text_char_count ≤ px) :
    buf' (px, py) = buf (px, py) := by
  have ht := tame_render w elapsed area buf w' buf' h
  refine (ht (px, py)).2 ?_
  intro i sym hc heq
  obtain ⟨hi, hrx⟩ := virtualCanvas_some area w.text _ i sym hc
  injection heq with h1 h2
  rcases hp with hp | hp | hp
  · exact hp h2
  · rw [hrx] at h1
    omega
  · rw [hrx] at h1
    omega

/-- C9 witness: rendering the five-character `exWidget` over `exArea`
(origin column 2, clamp `min 10 5 = 5`) leaves the cell right of the visible
prefix and a cell on another row untouched. -/
theorem render_clips_writes_to_visible_area_witness :
    exBufStatic (7, 1) = exBuf (7, 1) ∧ exBufStatic (1, 1) = exBuf (1, 1) ∧
      exBufStatic (4, 0) = exBuf (4, 0) :=
  ⟨render_clips_writes_to_visible_area exWidget 0 exArea exBuf exWidget exBufStatic
      (by rfl) 7 1 (by right; right; decide),
   render_clips_writes_to_visible_area exWidget 0 exArea exBuf exWidget exBufStatic
      (by rfl) 1 1 (by right; left; decide),
   render_clips_writes_to_visible_area exWidget 0 exArea exBuf exWidget exBufStatic
      (by rfl) 4 0 (by left; decide)⟩

/-- C10: a render writes only the character and the two colors into targeted
cells — every cell's modifier (text attributes) survives unchanged — and a
visible column claimed by nothing receives no write at all: on the static
path a column no rule may touch keeps its cell byte-for-byte, and on the
animation path a column absent from the frame's style map keeps its cell. -/
theorem render_never_writes_modifiers_or_unclaimed_columns {K : Type}
    [DecidableEq K] (w : SmallTextWidget K) (elapsed : Nat) (area : Rect)
    (buf : Buffer) (w' : SmallTextWidget K) (buf' : Buffer)
    (h : w.render elapsed area buf = some (w', buf')) :
    (∀ p, (buf' p).modifier = (buf p).modifier) ∧
    (w.active_animation = none →
      ∀ x, (∀ r ∈ w.symbol_styles, mayTouch r.1 x = false) →
        buf' (area.x + x, area.y) = buf (area.x + x, area.y)) ∧
    (∀ anim frame anim2, w.active_animation = some anim →
      anim.nextFrame elapsed = (some frame, anim2) →
      ∀ x, x ∉ frame.symbol_styles.map Prod.fst →
        buf' (area.x + x, area.y) = buf (area.x + x, area.y)) := by
  refine ⟨fun p => (tame_render w elapsed area buf w' buf' h p).1, ?_, ?_⟩
  · intro ha x hall
    unfold SmallTextWidget.render at h
    rw [ha] at h
    simp only [] at h
    cases hs : applyStyles w.symbol_styles w.text_char_count area.y
        (virtualCanvas area w.text (min area.width w.text_char_count))
        (List.range (min (min area.width w.text_char_count) w.text.length)) buf with
    | none => rw [hs] at h; exact Option.noConfusion h
    | some b =>
        rw [hs] at h
        replace h : some (w, b) = some (w', buf') := h
        injection h with h
        injection h with h1 h2
        subst h2
        exact applyStyles_preserves_at w.symbol_styles w.text_char_count area.y
          area w.text (min area.width w.text_char_count) x _ buf b hall hs
  · intro anim frame anim2 ha hnf x hx
    unfold SmallTextWidget.render at h
    rw [ha] at h
    simp only [] at h
    rw [hnf] at h
    replace h : some ({ w with active_animation := some anim2 },
      applyFrame area.y (virtualCanvas area w.text (min area.width w.text_char_count))
        frame buf) = some (w', buf') := h
    injection h with h
    injection h with h1 h2
    subst h2
    exact applyFrame_preserves_at area.y area w.text
      (min area.width w.text_char_count) x frame buf hx

/-- C10 witness: on the rule set `[(Single 0, A)]` the untouched column 3
keeps its whole cell and every cell keeps its modifier; on a frame mapping
only column 0, column 1 keeps its cell. -/
theorem render_never_writes_modifiers_or_unclaimed_columns_witness :
    (exBufNoUnt (2, 1)).modifier = (exBuf (2, 1)).modifier ∧
    exBufNoUnt (2 + 3, 1) = exBuf (2 + 3, 1) ∧
    exBufFrameRun (2 + 1, 1) = exBuf (2 + 1, 1) ∧
    (exBufFrameRun (2, 1)).modifier = (exBuf (2, 1)).modifier :=
  ⟨(render_never_writes_modifiers_or_unclaimed_columns exWidgetNoUnt 0 exArea exBuf
      exWidgetNoUnt exBufNoUnt (by rfl)).1 (2, 1),
   (render_never_writes_modifiers_or_unclaimed_columns exWidgetNoUnt 0 exArea exBuf
      exWidgetNoUnt exBufNoUnt (by rfl)).2.1 rfl 3 (by decide),
   (render_never_writes_modifiers_or_unclaimed_columns exWidgetRun 0 exArea exBuf
      exWidgetRun exBufFrameRun (by rfl)).2.2 exRunAnim exFrameRun exRunAnim rfl
      (by rfl) 1 (by decide),
   (render_never_writes_modifiers_or_unclaimed_columns exWidgetRun 0 exArea exBuf
      exWidgetRun exBufFrameRun (by rfl)).1 (2, 1)⟩

/-- C8: with no active animation, `pause_animation`, `unpause_animation` and
`advance_animation` are no-ops that leave the widget state unchanged. -/
theorem lifecycle_noop_without_active_animation {K : Type}
    (w : SmallTextWidget K) (h : w.active_animation = none) :
    w.pause_animation = w ∧ w.unpause_animation = w ∧ w.advance_animation = w := by
  obtain ⟨t, c, ss, aa, as⟩ := w
  simp only at h
  subst h
  exact ⟨rfl, rfl, rfl⟩

/-- C8 witness: the concrete widget with no active animation. -/
theorem lifecycle_noop_without_active_animation_witness :
    exWidget.pause_animation = exWidget ∧ exWidget.unpause_animation = exWidget ∧
      exWidget.advance_animation = exWidget :=
  lifecycle_noop_without_active_animation exWidget rfl

end SmallText
